import Mathlib

/-!
# Verification of the histocartography interpretability core

Shallow embedding, over `ℚ`, of the two halves of the interpretability core:

* `histocartography/interpretability/explainer_metrics.py`
  (`ExplainerMetric`: concept pooling, global/per-sample min-max
  normalization, histogram construction, pair-wise Wasserstein distance
  table, trapezoidal AUC scoring), and
* `histocartography/interpretability/single_instance_explainer.py`
  (`SingleInstanceExplainer.explain`: the mask-learning loop with its
  early-stopping rule).

Matrices are row-major `List (List ℚ)` values; the dense adjacency and the
node features of one graph are `Fin`-indexed functions.  The frozen
classifier, the softmax and the per-step mask values produced by the
gradient optimizer are opaque to the source under analysis and enter the
embedding as function parameters.
-/

namespace Histocart

/-! ## Small list utilities shared by the embeddings -/

/-- Minimum of a list of rationals (`np.min`); junk value `0` on `[]`,
where numpy would raise. -/
def listMin : List ℚ → ℚ
  | [] => 0
  | x :: xs => xs.foldl min x

/-- Maximum of a list of rationals (`np.max`); junk value `0` on `[]`. -/
def listMax : List ℚ → ℚ
  | [] => 0
  | x :: xs => xs.foldl max x

/-! ## `ExplainerMetric._compute_concept_histograms` — concept pooling

Embeds lines 113–130 of `explainer_metrics.py`.  `np.argsort` is embedded
as a stable ascending sort of the index list by score value (numpy's
quicksort fixes tie order differently, but no claim depends on ties). -/

/-- `np.argsort(s)`: the indices `0..len(s)-1` sorted so that the scores
read along them ascend. -/
def argsort (s : List ℚ) : List ℕ :=
  List.insertionSort (fun i j => s.getD i 0 ≤ s.getD j 0) (List.range s.length)

/-- `c[np.argsort(s)[:k]]` (line 123): the rows of the concept matrix `c`
at the first `k` positions of the ascending argsort of the scores `s`. -/
def keptRows (s : List ℚ) (c : List (List ℚ)) (k : ℕ) : List (List ℚ) :=
  ((argsort s).take k).map (fun i => c.getD i [])

/-- Line 119: `scores = [s for l, s in zip(label_list, importance_list) if l==t]`. -/
def classScores (labels : List ℕ) (imps : List (List ℚ)) (t : ℕ) :
    List (List ℚ) :=
  ((labels.zip imps).filter (fun p => p.1 == t)).map Prod.snd

/-- Line 120: `concepts = [s for l, s in zip(label_list, concept_list) if l==t]`. -/
def classConcepts (labels : List ℕ) (cons : List (List (List ℚ))) (t : ℕ) :
    List (List (List ℚ)) :=
  ((labels.zip cons).filter (fun p => p.1 == t)).map Prod.snd

/-- Line 123: per class index `t`, the list of each matching sample's
kept rows — the list `np.concatenate` receives on line 124. -/
def keptPerSample (labels : List ℕ) (imps : List (List ℚ))
    (cons : List (List (List ℚ))) (k t : ℕ) : List (List (List ℚ)) :=
  List.zipWith (fun c s => keptRows s c k)
    (classConcepts labels cons t) (classScores labels imps t)

/-- The failure mode of the pooling stage: `np.concatenate([], axis=0)`
raises `ValueError` when a class index has no matching sample
(line 124). -/
inductive PoolError : Type
  | emptyClass : PoolError
deriving DecidableEq

/-- Lines 123–124: keep each matching sample's `k` least-important rows
and concatenate them into one pool; an empty class (no sample whose label
equals the index `t`) makes `np.concatenate` raise. -/
def classPoolE (labels : List ℕ) (imps : List (List ℚ))
    (cons : List (List (List ℚ))) (k t : ℕ) :
    Except PoolError (List (List ℚ)) :=
  if keptPerSample labels imps cons k t = [] then .error .emptyClass
  else .ok (keptPerSample labels imps cons k t).flatten

/-- The `for t in range(self.n_tumors)` loop of line 116, aborting with
the first class whose pool is empty. -/
def poolsAux (labels : List ℕ) (imps : List (List ℚ))
    (cons : List (List (List ℚ))) (k : ℕ) :
    List ℕ → Except PoolError (List (List (List ℚ)))
  | [] => .ok []
  | t :: ts =>
      match classPoolE labels imps cons k t,
          poolsAux labels imps cons k ts with
      | .ok p, .ok ps => .ok (p :: ps)
      | .error e, _ => .error e
      | _, .error e => .error e

/-- Line 116: the pool table is built for `t in range(self.n_tumors)`,
i.e. for class *indices*, not for the configured class label values; it
exists only when every index has at least one matching sample. -/
def conceptPoolsE (nTumors : ℕ) (labels : List ℕ) (imps : List (List ℚ))
    (cons : List (List (List ℚ))) (k : ℕ) :
    Except PoolError (List (List (List ℚ))) :=
  poolsAux labels imps cons k (List.range nTumors)

/-- The pool as the spec sentence words it: gather exactly the samples
whose label equals `t` and concatenate each one's `k` least-important
concept rows. -/
def specPool (labels : List ℕ) (imps : List (List ℚ))
    (cons : List (List (List ℚ))) (k t : ℕ) : List (List ℚ) :=
  ((labels.zip (imps.zip cons)).filter (fun p => p.1 == t)).flatMap
    (fun p => keptRows p.2.1 p.2.2 k)

/-! ## `ExplainerMetric.normalize_node_concept` — global per-concept
min-max normalization (lines 145–172) and its per-sample split. -/

/-- Column `j` of a row-major matrix (out-of-range entries read as `0`;
all uses are guarded by a uniform row-length hypothesis). -/
def column (rows : List (List ℚ)) (j : ℕ) : List ℚ :=
  rows.map (fun r => r.getD j 0)

/-- One entry of sklearn's `minmax_scale`: `(x - min) / (max - min)`,
with the zero range replaced by `1` (`_handle_zeros_in_scale`), so a
constant column maps to `0`. -/
def scaleVal (m M x : ℚ) : ℚ :=
  (x - m) / (if M = m then 1 else M - m)

/-- Scale one row against the per-column `(min, max)` pairs `ms`. -/
def normRow : List ℚ → List (ℚ × ℚ) → List ℚ
  | x :: xs, mM :: ms => scaleVal mM.1 mM.2 x :: normRow xs ms
  | _, _ => []

/-- The per-column `(min, max)` pairs of a row-major matrix, one pair per
column of its first row. -/
def colMM (rows : List (List ℚ)) : List (ℚ × ℚ) :=
  (List.range (rows.headD []).length).map
    (fun j => (listMin (column rows j), listMax (column rows j)))

/-- `sklearn.preprocessing.minmax_scale` on a row-major matrix: rescale
every column to `[0,1]` by its own min/max (line 160). -/
def minmaxScale (rows : List (List ℚ)) : List (List ℚ) :=
  rows.map (fun r => normRow r (colMM rows))

/-- Lines 162–170: split the pooled matrix back into per-sample blocks by
repeatedly taking the sample's row count off the front (`extract_and_drop`,
with `np.delete` of the leading rows embedded as `List.drop`). -/
def splitRows : List (List (List ℚ)) → List (List ℚ) → List (List (List ℚ))
  | [], _ => []
  | s :: rest, stacked =>
      stacked.take s.length :: splitRows rest (stacked.drop s.length)

/-- `ExplainerMetric.normalize_node_concept` (lines 145–172): stack all
samples row-wise, min-max rescale each concept column globally, then
split back per sample in order. -/
def normalize_node_concept (samples : List (List (List ℚ))) :
    List (List (List ℚ)) :=
  splitRows samples (minmaxScale samples.flatten)

/-! ## `ExplainerMetric.build_hist` — 1-D density histogram (lines 174–187). -/

/-- Failure modes of `build_hist`: numpy raises on an empty pool
(`np.min([])`), and a zero-width bin makes the `density=True`
normalization divide by zero (numpy emits non-finite entries; the exact
embedding flags the division instead). -/
inductive HistError : Type
  | emptyPool : HistError
  | divByZero : HistError
deriving DecidableEq

/-- `np.linspace(a, b, num)`: `num` evenly spaced points from `a` to `b`
inclusive. -/
def linspace (a b : ℚ) (num : ℕ) : List ℚ :=
  if num ≤ 1 then (List.range num).map (fun _ => a)
  else (List.range num).map
    (fun (i : ℕ) => a + (i : ℚ) * (b - a) / ((num : ℚ) - 1))

/-- Count of pool values falling in one bin: left-closed, right-open,
except the last bin which is closed on the right (`np.histogram`). -/
def binCount (lo hi : ℚ) (isLast : Bool) (values : List ℚ) : ℕ :=
  (values.filter (fun v => lo ≤ v && (if isLast then v ≤ hi else v < hi))).length

/-- Line 185: the bin edges `np.linspace(np.min(values), np.max(values),
num=num_bins)`. -/
def histEdges (values : List ℚ) (numBins : ℕ) : List ℚ :=
  linspace (listMin values) (listMax values) numBins

/-- The per-bin counts of `np.histogram` over those edges. -/
def histCounts (values : List ℚ) (numBins : ℕ) : List ℕ :=
  (List.range (numBins - 1)).map
    (fun i => binCount ((histEdges values numBins).getD i 0)
      ((histEdges values numBins).getD (i + 1) 0)
      (decide (i = numBins - 2)) values)

/-- `ExplainerMetric.build_hist` (lines 174–187): bin edges are
`np.linspace(min, max, num_bins)` — so `num_bins` *edges* and
`num_bins - 1` bins — and the counts are normalized to a density by
dividing by `total count * bin width`. -/
def buildHist (values : List ℚ) (numBins : ℕ) : Except HistError (List ℚ) :=
  if values = [] then .error .emptyPool
  else if (List.range (numBins - 1)).any
      (fun i => (histEdges values numBins).getD (i + 1) 0 -
        (histEdges values numBins).getD i 0 == 0) then
    .error .divByZero
  else
    .ok ((List.range (numBins - 1)).map
      (fun i => ((histCounts values numBins).getD i 0 : ℚ) /
        ((((histCounts values numBins).map (fun c => (c : ℚ))).sum) *
          ((histEdges values numBins).getD (i + 1) 0 -
            (histEdges values numBins).getD i 0))))

/-! ## Class pairs and the Wasserstein distance table
(`ExplainerMetric.__init__` lines 34–35, `_compute_hist_distances`
lines 75–95). -/

/-- The pair enumeration of `_compute_hist_distances` (lines 84–94):
`tx` over `range n`, inner `ty` over `range n`, keeping `tx < ty`, in
loop order. -/
def classPairs (n : ℕ) : List (ℕ × ℕ) :=
  (List.range n).flatMap
    (fun tx => (List.range n).filterMap
      (fun ty => if tx < ty then some (tx, ty) else none))

/-- `itertools.combinations(l, 2)` in its enumeration order (line 34). -/
def combinations2 : List ℕ → List (ℕ × ℕ)
  | [] => []
  | x :: xs => xs.map (fun y => (x, y)) ++ combinations2 xs

/-- `_compute_hist_distances`: the 3-D distance table indexed by
(truncation index, class-pair index, concept index).  `W` stands for the
imported `scipy.stats.wasserstein_distance` and `hists k t c` for the
histogram table `all_histograms[k][t][c]`. -/
def computeHistDistances (W : List ℚ → List ℚ → ℚ)
    (hists : ℕ → ℕ → ℕ → List ℚ) (keepNumbers : List ℕ)
    (nTumors nConcepts : ℕ) : List (List (List ℚ)) :=
  keepNumbers.map (fun k =>
    (classPairs nTumors).map (fun p =>
      (List.range nConcepts).map (fun c => W (hists k p.1 c) (hists k p.2 c))))

/-! ## `sklearn.metrics.auc` — trapezoidal AUC scoring (line 71). -/

/-- Failure modes of `sklearn.metrics.auc`. -/
inductive AucError : Type
  | tooShort : AucError
  | notMonotonic : AucError
deriving DecidableEq

/-- `np.trapz(y, x)`: trapezoidal integral of the curve `y` over `x`. -/
def trapz (ys xs : List ℚ) : ℚ :=
  (List.zipWith (fun a b => (b.2 - a.2) * (a.1 + b.1) / 2)
    (ys.zip xs) ((ys.zip xs).drop 1)).sum

/-- The consecutive differences `np.diff(x)`. -/
def diffs (xs : List ℚ) : List ℚ :=
  List.zipWith (fun a b => b - a) xs (xs.drop 1)

/-- `sklearn.metrics.auc(x, y)`: requires at least two points; accepts any
monotonic `x` (direction `-1` when non-increasing) and raises
`ValueError` only when `x` is neither non-decreasing nor non-increasing. -/
def aucFn (xs ys : List ℚ) : Except AucError ℚ :=
  if xs.length < 2 then .error .tooShort
  else if (diffs xs).any (fun d => d < 0) then
    if (diffs xs).all (fun d => d ≤ 0) then .ok (-(trapz ys xs))
    else .error .notMonotonic
  else .ok (trapz ys xs)

/-- Lines 67–72 of `process`: one AUC per (class-pair, concept), with
`keep_numbers` as the x-axis and the distance-vs-k curve as the y-axis. -/
def aucStage (keepNumbers : List ℚ) (distances : List (List (List ℚ)))
    (nClassPairs nConcepts : ℕ) : List (List (Except AucError ℚ)) :=
  (List.range nClassPairs).map (fun p =>
    (List.range nConcepts).map (fun c =>
      aucFn keepNumbers
        (distances.map (fun byK => (byK.getD p []).getD c 0))))

/-! ## `SingleInstanceExplainer.explain` — the mask-learning loop

Embeds `single_instance_explainer.py`.  One graph has `n` nodes and `f`
feature channels; `classify` is the frozen black-box classifier, mapping a
dense adjacency and a feature matrix to the per-class logit list (read
1-D, as `torch.argmax(logits, axis=0)` on line 106 presupposes), and
`smax` is `torch.nn.Softmax`.  `adjThresh`/`nodeThresh` are the
configuration constants `adj_thresh`/`node_thresh`. -/

/-- First index attaining the maximum of a logit list
(`torch.argmax`; all concrete instances below are tie-free). -/
def argmaxAux : List ℚ → ℕ → ℚ → ℕ → ℕ
  | [], _, _, best => best
  | x :: xs, i, bv, best =>
      if bv < x then argmaxAux xs (i + 1) x i else argmaxAux xs (i + 1) bv best

/-- `torch.argmax` on a 1-D logit list (junk `0` on `[]`). -/
def argmax : List ℚ → ℕ
  | [] => 0
  | x :: xs => argmaxAux xs 1 x 0

/-- The mask values the gradient optimizer holds when iteration `s`
begins: the squashed edge mask and the squashed per-node feature mask
(`explainer._get_node_feats_mask()`). -/
structure MaskStep (n : ℕ) : Type where
  adjMask : Fin n → Fin n → ℚ
  nodeMask : Fin n → ℚ

/-- Modelled from the spec: `ExplainerModel.forward` lives in
`explainer_model.py`, which is not under `src/`.  Per §4.1 steps 2–3 the
forward pass applies the current squashed edge mask elementwise to the
adjacency and runs the frozen classifier on the masked inputs; the mask
values themselves are the opaque product of the gradient steps and enter
the embedding as the oracle sequence `masks`. -/
def softMaskedAdj {n : ℕ} (adj : Fin n → Fin n → ℚ) (m : MaskStep n) :
    Fin n → Fin n → ℚ :=
  fun i j => adj i j * m.adjMask i j

/-- Modelled from the spec: the feature half of `ExplainerModel.forward`
(absent `explainer_model.py`) scales every feature row by its node's
squashed mask value, matching how `explain` itself consumes
`_get_node_feats_mask()` as a per-node vector (lines 99–101). -/
def softMaskedFeats {n f : ℕ} (x : Fin n → Fin f → ℚ) (m : MaskStep n) :
    Fin n → Fin f → ℚ :=
  fun i j => x i j * m.nodeMask i

/-- Line 98: `masked_adj = (masked_adj > self.adj_thresh) * masked_adj`. -/
def thrAdj {n : ℕ} (adjThresh : ℚ) (A : Fin n → Fin n → ℚ) :
    Fin n → Fin n → ℚ :=
  fun i j => if adjThresh < A i j then A i j else 0

/-- Lines 100–101: zero out every feature row whose node mask value is
not above `node_thresh`. -/
def thrFeats {n f : ℕ} (nodeThresh : ℚ) (X : Fin n → Fin f → ℚ)
    (imp : Fin n → ℚ) : Fin n → Fin f → ℚ :=
  fun i j => X i j * (if nodeThresh < imp i then 1 else 0)

/-- The mutable "best explanation so far" of `SingleInstanceExplainer`
(fields set on lines 63–66 and overwritten on lines 126–129). -/
structure BestState (n f : ℕ) : Type where
  adjE : Fin n → Fin n → ℚ
  featsE : Fin n → Fin f → ℚ
  probsE : List ℚ
  imp : Fin n → ℚ

/-- The values `explain` returns on line 139 (shape squeezing dropped). -/
structure ExplainResult (n f : ℕ) : Type where
  adjExpl : Fin n → Fin n → ℚ
  featsExpl : Fin n → Fin f → ℚ
  probsBefore : List ℚ
  probsAfter : List ℚ
  nodeImportance : Fin n → ℚ

/-- Line 94, `logits, masked_adj, masked_feats = explainer()`: the frozen
classifier's logits on the soft-masked inputs of iteration `s`. -/
def stepLogits {n f : ℕ}
    (classify : (Fin n → Fin n → ℚ) → (Fin n → Fin f → ℚ) → List ℚ)
    (adj : Fin n → Fin n → ℚ) (x : Fin n → Fin f → ℚ)
    (masks : ℕ → MaskStep n) (s : ℕ) : List ℚ :=
  classify (softMaskedAdj adj (masks s)) (softMaskedFeats x (masks s))

/-- The best state the loop stores when iteration `s` keeps the label
(lines 126–129): thresholded masked adjacency and features, current
probabilities, current node mask. -/
def stepBest {n f : ℕ}
    (classify : (Fin n → Fin n → ℚ) → (Fin n → Fin f → ℚ) → List ℚ)
    (smax : List ℚ → List ℚ) (adjThresh nodeThresh : ℚ)
    (adj : Fin n → Fin n → ℚ) (x : Fin n → Fin f → ℚ)
    (masks : ℕ → MaskStep n) (s : ℕ) : BestState n f :=
  ⟨thrAdj adjThresh (softMaskedAdj adj (masks s)),
    thrFeats nodeThresh (softMaskedFeats x (masks s)) (masks s).nodeMask,
    smax (stepLogits classify adj x masks s),
    (masks s).nodeMask⟩

/-- The training loop of `explain` (lines 93–137): at iteration `s` run
the classifier on the soft-masked inputs, record its probabilities in the
local `probs`, and — when the predicted label still equals the original
predicted label — overwrite the best state with the *thresholded* masked
tensors; otherwise stop at once.  The optimizer step at the end of the
iteration is part of the opaque mask oracle. -/
def runSteps {n f : ℕ} (classify : (Fin n → Fin n → ℚ) → (Fin n → Fin f → ℚ) → List ℚ)
    (smax : List ℚ → List ℚ) (adjThresh nodeThresh : ℚ)
    (adj : Fin n → Fin n → ℚ) (x : Fin n → Fin f → ℚ)
    (masks : ℕ → MaskStep n) (initPred : ℕ) :
    ℕ → ℕ → BestState n f → Option (List ℚ) → BestState n f × Option (List ℚ)
  | 0, _, best, lastProbs => (best, lastProbs)
  | steps + 1, s, best, _ =>
      if argmax (stepLogits classify adj x masks s) = initPred then
        runSteps classify smax adjThresh nodeThresh adj x masks initPred steps
          (s + 1)
          (stepBest classify smax adjThresh nodeThresh adj x masks s)
          (some (smax (stepLogits classify adj x masks s)))
      else (best, some (smax (stepLogits classify adj x masks s)))

/-- `SingleInstanceExplainer.explain` (lines 35–139): compute the
unmasked logits and probabilities once, take the classifier's own
predicted label as the fidelity target, seed the best state with the
unmasked graph, run the loop, and return the best tensors together with
`init_probs` and the *local* loop variable `probs` (the probabilities of
the last executed iteration).  With a zero step budget the local `probs`
was never assigned (a `NameError` in the source), embedded as `none`. -/
def explain {n f : ℕ} (classify : (Fin n → Fin n → ℚ) → (Fin n → Fin f → ℚ) → List ℚ)
    (smax : List ℚ → List ℚ) (adjThresh nodeThresh : ℚ)
    (adj : Fin n → Fin n → ℚ) (x : Fin n → Fin f → ℚ)
    (masks : ℕ → MaskStep n) (numEpochs : ℕ) : Option (ExplainResult n f) :=
  let initLogits := classify adj x
  let initProbs := smax initLogits
  let initPred := argmax initLogits
  let best0 : BestState n f := ⟨adj, x, initProbs, (masks 0).nodeMask⟩
  let out := runSteps classify smax adjThresh nodeThresh adj x masks initPred
    numEpochs 0 best0 none
  out.2.map (fun p =>
    ⟨out.1.adjE, out.1.featsE, initProbs, p, out.1.imp⟩)

/-- The early-stop test of line 125, as a predicate on the step index:
the soft-masked logits at step `s` no longer give the original predicted
label. -/
def driftAt {n f : ℕ} (classify : (Fin n → Fin n → ℚ) → (Fin n → Fin f → ℚ) → List ℚ)
    (adj : Fin n → Fin n → ℚ) (x : Fin n → Fin f → ℚ)
    (masks : ℕ → MaskStep n) (s : ℕ) : Prop :=
  argmax (stepLogits classify adj x masks s) ≠ argmax (classify adj x)

/-! ## Concrete single-node instances used by the explainer claims

One node, one feature channel, two classes.  The classifier reads the
lone adjacency entry as the class-0 logit and always gives class 1 the
logit `1/2`; the softmax is taken as the identity, which is enough for
every label and data-flow question. -/

/-- A one-node graph's adjacency: the single entry is `1`. -/
def exAdj : Fin 1 → Fin 1 → ℚ := fun _ _ => 1

/-- A one-node graph's features: the single entry is `1`. -/
def exX : Fin 1 → Fin 1 → ℚ := fun _ _ => 1

/-- A two-class frozen classifier on the one-node graph: logits
`[adjacency entry, 1/2]`. -/
def exClassify : (Fin 1 → Fin 1 → ℚ) → (Fin 1 → Fin 1 → ℚ) → List ℚ :=
  fun A _ => [A 0 0, 1 / 2]

/-- A mask oracle whose soft edge mask is `3/5` at every step (node mask
stays `1`). -/
def exMasksC1 : ℕ → MaskStep 1 := fun _ => ⟨fun _ _ => 3 / 5, fun _ => 1⟩

/-- A mask oracle whose soft edge mask is `9/10` at step `0` and `1/10`
afterwards (node mask stays `1`), so the predicted label drifts at
step `1`. -/
def exMasksC2 : ℕ → MaskStep 1 :=
  fun s => if s = 0 then ⟨fun _ _ => 9 / 10, fun _ => 1⟩
    else ⟨fun _ _ => 1 / 10, fun _ => 1⟩

/-! ## Shape validation (claim C10)

`explain` itself performs no dimension check; its inputs come from one
graph object, and the `ExplainerModel` constructor it calls on lines
53–61 is in `explainer_model.py`, which is not under `src/`. -/

/-- The spec's construction-time validation error kind (§7). -/
inductive ExplainError : Type
  | shapeMismatch : ExplainError
deriving DecidableEq

/-- Modelled from the spec: the construction-time validation of
`ExplainerModel` (`explainer_model.py`, not under `src/`).  §4.1 requires
"adjacency is square and matches the node count of features" and §7 has
such validation "raised immediately" as `ShapeMismatch`. -/
def validShapes (adj : List (List ℚ)) (feats : List (List ℚ)) : Bool :=
  adj.all (fun row => row.length == adj.length) && feats.length == adj.length

/-- Raw-tensor entry into `explain`: validate the shapes the way the
spec-modelled `ExplainerModel` constructor does, then run the loop on the
`Fin`-indexed views of the matrices.  The validation happens where the
source constructs the `ExplainerModel` (lines 53–61), before the first
optimization step. -/
def explainChecked (adj : List (List ℚ)) (feats : List (List ℚ))
    (classify : (Fin adj.length → Fin adj.length → ℚ) →
      (Fin adj.length → Fin (feats.headD []).length → ℚ) → List ℚ)
    (smax : List ℚ → List ℚ) (adjThresh nodeThresh : ℚ)
    (masks : ℕ → MaskStep adj.length) (numEpochs : ℕ) :
    Except ExplainError (Option (ExplainResult adj.length
      (feats.headD []).length)) :=
  if validShapes adj feats then
    .ok (explain classify smax adjThresh nodeThresh
      (fun i j => (adj.getD i []).getD j 0)
      (fun i j => (feats.getD i []).getD j 0)
      masks numEpochs)
  else .error .shapeMismatch

/-- The two nested loops of `_compute_hist_distances`, generalized over
the outer and inner lists. -/
def pairLoop (outer inner : List ℕ) : List (ℕ × ℕ) :=
  outer.flatMap
    (fun tx => inner.filterMap
      (fun ty => if tx < ty then some (tx, ty) else none))

/-! ## Theorems

Utility lemmas first, then one block per claim. -/

theorem foldl_min_le_init {l : List ℚ} {a : ℚ} : l.foldl min a ≤ a := by
  induction l generalizing a with
  | nil => exact le_refl a
  | cons y ys ih =>
    calc (y :: ys).foldl min a = ys.foldl min (min a y) := rfl
      _ ≤ min a y := ih
      _ ≤ a := min_le_left _ _

theorem init_le_foldl_max {l : List ℚ} {a : ℚ} : a ≤ l.foldl max a := by
  induction l generalizing a with
  | nil => exact le_refl a
  | cons y ys ih =>
    calc a ≤ max a y := le_max_left _ _
      _ ≤ ys.foldl max (max a y) := ih
      _ = (y :: ys).foldl max a := rfl

theorem foldl_min_le_mem {l : List ℚ} {a x : ℚ} (hx : x ∈ l) :
    l.foldl min a ≤ x := by
  induction l generalizing a with
  | nil => cases hx
  | cons y ys ih =>
    rcases List.mem_cons.mp hx with rfl | hx'
    · calc (x :: ys).foldl min a = ys.foldl min (min a x) := rfl
        _ ≤ min a x := foldl_min_le_init
        _ ≤ x := min_le_right _ _
    · exact ih hx'

theorem le_foldl_max_mem {l : List ℚ} {a x : ℚ} (hx : x ∈ l) :
    x ≤ l.foldl max a := by
  induction l generalizing a with
  | nil => cases hx
  | cons y ys ih =>
    rcases List.mem_cons.mp hx with rfl | hx'
    · calc x ≤ max a x := le_max_right _ _
        _ ≤ ys.foldl max (max a x) := init_le_foldl_max
        _ = (x :: ys).foldl max a := rfl
    · exact ih hx'

theorem listMin_le_mem {l : List ℚ} {x : ℚ} (hx : x ∈ l) : listMin l ≤ x := by
  cases l with
  | nil => cases hx
  | cons y ys =>
    rcases List.mem_cons.mp hx with rfl | hx'
    · exact foldl_min_le_init
    · exact foldl_min_le_mem hx'

theorem mem_le_listMax {l : List ℚ} {x : ℚ} (hx : x ∈ l) : x ≤ listMax l := by
  cases l with
  | nil => cases hx
  | cons y ys =>
    rcases List.mem_cons.mp hx with rfl | hx'
    · exact init_le_foldl_max
    · exact le_foldl_max_mem hx'

theorem foldl_min_mem {l : List ℚ} {a : ℚ} :
    l.foldl min a = a ∨ l.foldl min a ∈ l := by
  induction l generalizing a with
  | nil => exact Or.inl rfl
  | cons y ys ih =>
    have hfold : (y :: ys).foldl min a = ys.foldl min (min a y) := rfl
    rcases @ih (min a y) with h | h
    · rw [hfold, h]
      rcases min_cases a y with ⟨hm, _⟩ | ⟨hm, _⟩
      · exact Or.inl hm
      · exact Or.inr (by rw [hm]; exact List.mem_cons_self _ _)
    · exact Or.inr (by rw [hfold]; exact List.mem_cons_of_mem _ h)

theorem foldl_max_mem {l : List ℚ} {a : ℚ} :
    l.foldl max a = a ∨ l.foldl max a ∈ l := by
  induction l generalizing a with
  | nil => exact Or.inl rfl
  | cons y ys ih =>
    have hfold : (y :: ys).foldl max a = ys.foldl max (max a y) := rfl
    rcases @ih (max a y) with h | h
    · rw [hfold, h]
      rcases max_cases a y with ⟨hm, _⟩ | ⟨hm, _⟩
      · exact Or.inl hm
      · exact Or.inr (by rw [hm]; exact List.mem_cons_self _ _)
    · exact Or.inr (by rw [hfold]; exact List.mem_cons_of_mem _ h)

theorem listMin_mem {l : List ℚ} (h : l ≠ []) : listMin l ∈ l := by
  cases l with
  | nil => exact absurd rfl h
  | cons y ys =>
    rcases @foldl_min_mem ys y with h' | h'
    · exact List.mem_cons.mpr (Or.inl h')
    · exact List.mem_cons.mpr (Or.inr h')

theorem listMax_mem {l : List ℚ} (h : l ≠ []) : listMax l ∈ l := by
  cases l with
  | nil => exact absurd rfl h
  | cons y ys =>
    rcases @foldl_max_mem ys y with h' | h'
    · exact List.mem_cons.mpr (Or.inl h')
    · exact List.mem_cons.mpr (Or.inr h')

theorem listMin_le_listMax {l : List ℚ} (h : l ≠ []) :
    listMin l ≤ listMax l :=
  mem_le_listMax (listMin_mem h)

theorem getD_map {α β : Type} (l : List α) (f : α → β) (i : ℕ) (d : α)
    (h : i < l.length) : (l.map f).getD i (f d) = f (l.getD i d) := by
  induction l generalizing i with
  | nil => simp at h
  | cons x xs ih =>
    cases i with
    | zero => rfl
    | succ n => exact ih n (by simpa using h)

theorem map_getD_range {α : Type} (l : List α) (d : α) :
    (List.range l.length).map (fun i => l.getD i d) = l := by
  induction l with
  | nil => rfl
  | cons x xs ih =>
    rw [List.length_cons, List.range_succ_eq_map, List.map_cons, List.map_map]
    have h1 : ((fun i => (x :: xs).getD i d) ∘ Nat.succ) = fun i => xs.getD i d := by
      funext i; rfl
    rw [h1, ih]
    rfl

theorem getD_map' {α β : Type} (l : List α) (f : α → β) (i : ℕ) (d : α)
    (d' : β) (h : i < l.length) : (l.map f).getD i d' = f (l.getD i d) := by
  induction l generalizing i with
  | nil => simp at h
  | cons x xs ih =>
    cases i with
    | zero => rfl
    | succ m => exact ih m (by simpa using h)

theorem range_getD {n i d : ℕ} (h : i < n) : (List.range n).getD i d = i := by
  simp [List.getD_eq_getElem?_getD, List.getElem?_range h]

theorem classPairs_eq_pairLoop (n : ℕ) :
    classPairs n = pairLoop (List.range n) (List.range n) := rfl

theorem filterMap_lt_all {x : ℕ} {ys : List ℕ} (h : ∀ y ∈ ys, x < y) :
    ys.filterMap (fun ty => if x < ty then some (x, ty) else none) =
      ys.map (fun y => (x, y)) := by
  induction ys with
  | nil => rfl
  | cons y ys ih =>
    rw [List.filterMap_cons, List.map_cons]
    rw [if_pos (h y (List.mem_cons_self _ _))]
    rw [ih (fun z hz => h z (List.mem_cons_of_mem _ hz))]

theorem pairLoop_inner_cons {outer : List ℕ} {x : ℕ} (xs : List ℕ)
    (h : ∀ tx ∈ outer, ¬ tx < x) :
    pairLoop outer (x :: xs) = pairLoop outer xs := by
  induction outer with
  | nil => rfl
  | cons t ts ih =>
    show (x :: xs).filterMap _ ++ pairLoop ts (x :: xs) =
      xs.filterMap _ ++ pairLoop ts xs
    rw [List.filterMap_cons, if_neg (h t (List.mem_cons_self _ _))]
    rw [ih (fun z hz => h z (List.mem_cons_of_mem _ hz))]

theorem pairLoop_sorted_eq_combinations2 {l : List ℕ}
    (h : l.Pairwise (· < ·)) : pairLoop l l = combinations2 l := by
  induction l with
  | nil => rfl
  | cons x xs ih =>
    rcases List.pairwise_cons.mp h with ⟨hx, hxs⟩
    show (x :: xs).filterMap _ ++ pairLoop xs (x :: xs) =
      xs.map (fun y => (x, y)) ++ combinations2 xs
    rw [List.filterMap_cons, if_neg (lt_irrefl x), filterMap_lt_all hx]
    rw [pairLoop_inner_cons xs (fun tx htx => not_lt_of_gt (hx tx htx)),
      ih hxs]

theorem classPairs_eq_combinations2 (n : ℕ) :
    classPairs n = combinations2 (List.range n) := by
  rw [classPairs_eq_pairLoop]
  exact pairLoop_sorted_eq_combinations2 (List.pairwise_lt_range n)

theorem length_combinations2 (l : List ℕ) :
    (combinations2 l).length = l.length.choose 2 := by
  induction l with
  | nil => rfl
  | cons x xs ih =>
    show (xs.map (fun y => (x, y)) ++ combinations2 xs).length =
      (xs.length + 1).choose 2
    rw [List.length_append, List.length_map, ih, Nat.choose_succ_succ,
      Nat.choose_one_right]

/-- C5: For every truncation index, class-pair index and concept, the
entry of the distance table built by `_compute_hist_distances` is the
Wasserstein distance between the histograms of the two members of the
`p`-th unordered pair; the pairs are enumerated once, in ascending-tuple
combinatorial order (`itertools.combinations` order over the sorted class
label list `0, …, n-1`), there are `C(n, 2)` of them, and for `3` classes
the order is `(0,1), (0,2), (1,2)`. -/
theorem distance_table_pair_indexing :
    (∀ (W : List ℚ → List ℚ → ℚ) (hists : ℕ → ℕ → ℕ → List ℚ)
      (ks : List ℕ) (n nc kId p c : ℕ),
      kId < ks.length → p < (classPairs n).length → c < nc →
      (((computeHistDistances W hists ks n nc).getD kId []).getD p []).getD c 0 =
        W (hists (ks.getD kId 0) ((classPairs n).getD p (0, 0)).1 c)
          (hists (ks.getD kId 0) ((classPairs n).getD p (0, 0)).2 c)) ∧
    (∀ n : ℕ, classPairs n = combinations2 (List.range n) ∧
      (classPairs n).length = n.choose 2) ∧
    classPairs 3 = [(0, 1), (0, 2), (1, 2)] := by
  refine ⟨?_, ?_, by decide⟩
  · intro W hists ks n nc kId p c hk hp hc
    rw [computeHistDistances, getD_map' _ _ _ 0 _ hk,
      getD_map' _ _ _ (0, 0) _ hp,
      getD_map' _ _ _ 0 _ (by simpa using hc), range_getD hc]
  · intro n
    refine ⟨classPairs_eq_combinations2 n, ?_⟩
    rw [classPairs_eq_combinations2, length_combinations2, List.length_range]

/-- Witness for C5 at a concrete table: three classes, one truncation
size `5`, one concept; the entry at pair index `1` pairs the class-`0`
and class-`2` histograms. -/
theorem distance_table_pair_indexing_witness :
    (((computeHistDistances (fun u v => u.sum + v.sum)
        (fun k t c => [(k : ℚ), (t : ℚ), (c : ℚ)]) [5] 3 1).getD 0 []).getD
          1 []).getD 0 0 = 12 := by
  have h := distance_table_pair_indexing.1 (fun u v => u.sum + v.sum)
    (fun k t c => [(k : ℚ), (t : ℚ), (c : ℚ)]) [5] 3 1 0 1 0
    (by decide) (by decide) (by decide)
  have hp : (classPairs 3).getD 1 (0, 0) = (0, 2) := by decide
  rw [h, hp]
  norm_num

/-! ## Theorems — claims C6 and C7: `build_hist` -/

theorem length_linspace (a b : ℚ) (num : ℕ) :
    (linspace a b num).length = num := by
  rw [linspace]
  split <;> simp

theorem linspace_getD {a b : ℚ} {num i : ℕ} (h2 : 2 ≤ num) (hi : i < num) :
    (linspace a b num).getD i 0 =
      a + (i : ℚ) * (b - a) / ((num : ℚ) - 1) := by
  rw [linspace, if_neg (by omega)]
  rw [getD_map' _ _ _ 0 _ (by simpa using hi), range_getD hi]

theorem linspace_width {a b : ℚ} {num i : ℕ} (h2 : 2 ≤ num)
    (hi : i + 1 < num) :
    (linspace a b num).getD (i + 1) 0 - (linspace a b num).getD i 0 =
      (b - a) / ((num : ℚ) - 1) := by
  rw [linspace_getD h2 hi, linspace_getD h2 (by omega)]
  push_cast
  ring

theorem num_cast_sub_one_pos {num : ℕ} (h2 : 2 ≤ num) :
    (0 : ℚ) < (num : ℚ) - 1 := by
  have : (2 : ℚ) ≤ (num : ℚ) := by exact_mod_cast h2
  linarith

theorem buildHist_ok {values : List ℚ} {numBins : ℕ} (hne : values ≠ [])
    (h2 : 2 ≤ numBins) (hlt : listMin values < listMax values) :
    buildHist values numBins =
      .ok ((List.range (numBins - 1)).map
        (fun i => ((histCounts values numBins).getD i 0 : ℚ) /
          ((((histCounts values numBins).map (fun c => (c : ℚ))).sum) *
            ((histEdges values numBins).getD (i + 1) 0 -
              (histEdges values numBins).getD i 0)))) := by
  rw [buildHist, if_neg hne, if_neg ?hany]
  case hany =>
    rw [Bool.not_eq_true, List.any_eq_false]
    intro i hi
    rw [Bool.not_eq_true, beq_eq_false_iff_ne]
    have hi' : i + 1 < numBins := by
      have := List.mem_range.mp hi
      omega
    rw [histEdges, linspace_width h2 hi']
    exact ne_of_gt (div_pos (sub_pos.mpr hlt) (num_cast_sub_one_pos h2))

/-- C6 (amended): For every non-empty pool whose observed minimum is
strictly below its observed maximum, `build_hist` with the default
`num_bins = 100` succeeds and returns a histogram of `99` bins — the
`num_bins` parameter counts the `np.linspace` bin *edges*, of which there
are `100` — and the edges span exactly the pool's own observed minimum to
maximum. -/
theorem build_hist_bins_and_span (values : List ℚ) (hne : values ≠ [])
    (hlt : listMin values < listMax values) :
    (∃ h, buildHist values 100 = .ok h ∧ h.length = 99) ∧
    (histEdges values 100).length = 100 ∧
    listMin values ∈ histEdges values 100 ∧
    listMax values ∈ histEdges values 100 ∧
    (∀ e ∈ histEdges values 100, listMin values ≤ e ∧ e ≤ listMax values) := by
  have h2 : 2 ≤ 100 := by omega
  refine ⟨⟨_, buildHist_ok hne h2 hlt, by simp⟩, by
    rw [histEdges]; exact length_linspace _ _ 100, ?_, ?_, ?_⟩
  · rw [histEdges, linspace, if_neg (by omega)]
    refine List.mem_map.mpr ⟨0, by simp, ?_⟩
    push_cast
    ring
  · rw [histEdges, linspace, if_neg (by omega)]
    refine List.mem_map.mpr ⟨99, by simp, ?_⟩
    push_cast
    have h99 : (99 : ℚ) ≠ 0 := by norm_num
    field_simp
    ring
  · intro e he
    rw [histEdges, linspace, if_neg (by omega)] at he
    rcases List.mem_map.mp he with ⟨i, hi, rfl⟩
    have hi' : (i : ℚ) ≤ 99 := by
      have hilt : i < 100 := List.mem_range.mp hi
      exact_mod_cast Nat.le_of_lt_succ hilt
    have hba : (0 : ℚ) < listMax values - listMin values := sub_pos.mpr hlt
    have hc : ((100 : ℕ) : ℚ) - 1 = 99 := by norm_num
    rw [hc]
    constructor
    · have hnn : (0 : ℚ) ≤
          (i : ℚ) * (listMax values - listMin values) / 99 :=
        div_nonneg (mul_nonneg (Nat.cast_nonneg i) (le_of_lt hba))
          (by norm_num)
      linarith
    · have h1 : (i : ℚ) * (listMax values - listMin values) ≤
          99 * (listMax values - listMin values) :=
        mul_le_mul_of_nonneg_right hi' (le_of_lt hba)
      have h2q : (i : ℚ) * (listMax values - listMin values) / 99 ≤
          listMax values - listMin values := by
        rw [div_le_iff₀ (by norm_num : (0 : ℚ) < 99)]
        linarith
      linarith

/-- Witness for C6 on the two-element pool `[0, 1]`: the histogram has
`99` bins over `100` edges. -/
theorem build_hist_bins_and_span_witness :
    (∃ h, buildHist [(0 : ℚ), 1] 100 = .ok h ∧ h.length = 99) ∧
    (histEdges [(0 : ℚ), 1] 100).length = 100 := by
  have h := build_hist_bins_and_span [(0 : ℚ), 1] (by simp)
    (by show min 0 1 < max 0 1; norm_num)
  exact ⟨h.1, h.2.1⟩

/-- C6 counterexample to the claim as stated: On the two-element
pool `[0, 1]` the default `build_hist` returns a histogram of `99` bins,
not the claimed fixed bin count of `100`. -/
theorem build_hist_not_100_bins :
    Except.map List.length (buildHist [(0 : ℚ), 1] 100) = .ok 99 ∧
      (99 : ℕ) ≠ 100 := by
  have hne : ([(0 : ℚ), 1] : List ℚ) ≠ [] := by simp
  have hlt : listMin [(0 : ℚ), 1] < listMax [(0 : ℚ), 1] := by
    show min 0 1 < max 0 1
    norm_num
  rw [buildHist_ok hne (by omega) hlt]
  exact ⟨by simp [Except.map], by omega⟩

/-- C7: the divide-by-zero the claim says must not happen. On a
zero-variance pool (`min == max`, here `[5, 5]`) `build_hist` builds `100`
identical bin edges and the `density=True` normalization divides the
counts by zero bin widths — numpy emits non-finite values; the embedding
flags the division.  No degenerate single-value histogram and no explicit
zero-width policy exists in the code. -/
theorem build_hist_zero_variance_divides_by_zero :
    buildHist [(5 : ℚ), 5] 100 = .error .divByZero := by
  have hne : ([(5 : ℚ), 5] : List ℚ) ≠ [] := by simp
  rw [buildHist, if_neg hne, if_pos ?hany]
  case hany =>
    rw [List.any_eq_true]
    refine ⟨0, by simp, ?_⟩
    have hmm : listMin [(5 : ℚ), 5] = listMax [(5 : ℚ), 5] := by
      show min 5 5 = max 5 5
      norm_num
    rw [beq_iff_eq, histEdges, hmm, linspace_width (by omega) (by omega)]
    norm_num

/-! ## Theorems — claim C3: the concept pools -/

theorem classScores_cons {l t : ℕ} {i : List ℚ} {ls : List ℕ}
    {is : List (List ℚ)} :
    classScores (l :: ls) (i :: is) t =
      if (l == t) = true then i :: classScores ls is t
      else classScores ls is t := by
  rw [classScores, List.zip_cons_cons, List.filter_cons]
  by_cases hb : (l == t) = true
  · rw [if_pos hb, if_pos hb, List.map_cons]
    rfl
  · rw [if_neg hb, if_neg hb]
    rfl

theorem classConcepts_cons {l t : ℕ} {c : List (List ℚ)} {ls : List ℕ}
    {cs : List (List (List ℚ))} :
    classConcepts (l :: ls) (c :: cs) t =
      if (l == t) = true then c :: classConcepts ls cs t
      else classConcepts ls cs t := by
  rw [classConcepts, List.zip_cons_cons, List.filter_cons]
  by_cases hb : (l == t) = true
  · rw [if_pos hb, if_pos hb, List.map_cons]
    rfl
  · rw [if_neg hb, if_neg hb]
    rfl

theorem keptPerSample_cons {l t k : ℕ} {i : List ℚ} {c : List (List ℚ)}
    {ls : List ℕ} {is : List (List ℚ)} {cs : List (List (List ℚ))} :
    keptPerSample (l :: ls) (i :: is) (c :: cs) k t =
      if (l == t) = true then
        keptRows i c k :: keptPerSample ls is cs k t
      else keptPerSample ls is cs k t := by
  rw [keptPerSample, classScores_cons, classConcepts_cons]
  by_cases hb : (l == t) = true
  · rw [if_pos hb, if_pos hb, if_pos hb, List.zipWith_cons_cons]
    rfl
  · rw [if_neg hb, if_neg hb, if_neg hb]
    rfl

theorem specPool_cons {l t k : ℕ} {i : List ℚ} {c : List (List ℚ)}
    {ls : List ℕ} {is : List (List ℚ)} {cs : List (List (List ℚ))} :
    specPool (l :: ls) (i :: is) (c :: cs) k t =
      if (l == t) = true then keptRows i c k ++ specPool ls is cs k t
      else specPool ls is cs k t := by
  rw [specPool, List.zip_cons_cons, List.zip_cons_cons, List.filter_cons]
  by_cases hb : (l == t) = true
  · rw [if_pos hb, if_pos hb, List.flatMap_cons]
    rfl
  · rw [if_neg hb, if_neg hb]
    rfl

theorem flatten_keptPerSample :
    ∀ (labels : List ℕ) (imps : List (List ℚ))
      (cons : List (List (List ℚ))) (k t : ℕ),
      labels.length = imps.length → labels.length = cons.length →
      (keptPerSample labels imps cons k t).flatten =
        specPool labels imps cons k t := by
  intro labels
  induction labels with
  | nil => intro imps cons k t h1 h2; rfl
  | cons l ls ih =>
    intro imps cons k t h1 h2
    cases imps with
    | nil => simp at h1
    | cons i is =>
      cases cons with
      | nil => simp at h2
      | cons c cs =>
        have ih' := ih is cs k t (by simpa using h1) (by simpa using h2)
        rw [keptPerSample_cons, specPool_cons]
        by_cases hb : (l == t) = true
        · rw [if_pos hb, if_pos hb, List.flatten_cons, ih']
        · rw [if_neg hb, if_neg hb, ih']

theorem keptPerSample_nil_iff :
    ∀ (labels : List ℕ) (imps : List (List ℚ))
      (cons : List (List (List ℚ))) (k t : ℕ),
      labels.length = imps.length → labels.length = cons.length →
      (keptPerSample labels imps cons k t = [] ↔ t ∉ labels) := by
  intro labels
  induction labels with
  | nil =>
    intro imps cons k t h1 h2
    simp [keptPerSample, classScores, classConcepts]
  | cons l ls ih =>
    intro imps cons k t h1 h2
    cases imps with
    | nil => simp at h1
    | cons i is =>
      cases cons with
      | nil => simp at h2
      | cons c cs =>
        have ih' := ih is cs k t (by simpa using h1) (by simpa using h2)
        rw [keptPerSample_cons]
        by_cases hb : (l == t) = true
        · have hl : l = t := by simpa using hb
          subst hl
          rw [if_pos hb]
          simp
        · have hl : ¬ l = t := by simpa using hb
          rw [if_neg hb, ih']
          constructor
          · intro hts hmem
            rcases List.mem_cons.mp hmem with rfl | hmem'
            · exact hl rfl
            · exact hts hmem'
          · intro hts hmem
            exact hts (List.mem_cons_of_mem _ hmem)

theorem classPoolE_of_mem {labels : List ℕ} {imps : List (List ℚ)}
    {cons : List (List (List ℚ))} {k t : ℕ}
    (h1 : labels.length = imps.length) (h2 : labels.length = cons.length)
    (ht : t ∈ labels) :
    classPoolE labels imps cons k t = .ok (specPool labels imps cons k t) := by
  have hni := keptPerSample_nil_iff labels imps cons k t h1 h2
  rw [classPoolE, if_neg (fun he => (hni.mp he) ht),
    flatten_keptPerSample labels imps cons k t h1 h2]

theorem classPoolE_of_not_mem {labels : List ℕ} {imps : List (List ℚ)}
    {cons : List (List (List ℚ))} {k t : ℕ}
    (h1 : labels.length = imps.length) (h2 : labels.length = cons.length)
    (ht : t ∉ labels) :
    classPoolE labels imps cons k t = .error .emptyClass := by
  rw [classPoolE,
    if_pos ((keptPerSample_nil_iff labels imps cons k t h1 h2).mpr ht)]

theorem poolsAux_ok {labels : List ℕ} {imps : List (List ℚ)}
    {cons : List (List (List ℚ))} {k : ℕ}
    (h1 : labels.length = imps.length) (h2 : labels.length = cons.length) :
    ∀ ts : List ℕ, (∀ t ∈ ts, t ∈ labels) →
      poolsAux labels imps cons k ts =
        .ok (ts.map (fun t => specPool labels imps cons k t)) := by
  intro ts
  induction ts with
  | nil => intro _; rfl
  | cons t ts ih =>
    intro hall
    rw [poolsAux, classPoolE_of_mem h1 h2 (hall t (List.mem_cons_self _ _)),
      ih (fun u hu => hall u (List.mem_cons_of_mem _ hu))]
    rfl

theorem poolsAux_error {labels : List ℕ} {imps : List (List ℚ)}
    {cons : List (List (List ℚ))} {k : ℕ}
    (h1 : labels.length = imps.length) (h2 : labels.length = cons.length) :
    ∀ ts : List ℕ, (∃ t ∈ ts, t ∉ labels) →
      poolsAux labels imps cons k ts = .error .emptyClass := by
  intro ts
  induction ts with
  | nil => intro ⟨t, ht, _⟩; cases ht
  | cons t ts ih =>
    intro ⟨u, hu, hunot⟩
    rw [poolsAux]
    rcases List.mem_cons.mp hu with rfl | hu'
    · rw [classPoolE_of_not_mem h1 h2 hunot]
      cases poolsAux labels imps cons k ts <;> rfl
    · by_cases ht : t ∈ labels
      · rw [classPoolE_of_mem h1 h2 ht, ih ⟨u, hu', hunot⟩]
      · rw [classPoolE_of_not_mem h1 h2 ht]
        cases poolsAux labels imps cons k ts <;> rfl

theorem argsort_perm (s : List ℚ) :
    (argsort s).Perm (List.range s.length) :=
  List.perm_insertionSort _ _

theorem argsort_sorted (s : List ℚ) :
    List.Sorted (fun i j => s.getD i 0 ≤ s.getD j 0) (argsort s) := by
  haveI : IsTotal ℕ (fun i j => s.getD i 0 ≤ s.getD j 0) :=
    ⟨fun a b => le_total _ _⟩
  haveI : IsTrans ℕ (fun i j => s.getD i 0 ≤ s.getD j 0) :=
    ⟨fun a b c hab hbc => le_trans hab hbc⟩
  exact List.sorted_insertionSort _ _

theorem argsort_length (s : List ℚ) : (argsort s).length = s.length := by
  rw [(argsort_perm s).length_eq, List.length_range]

theorem keptRows_perm_of_short {s : List ℚ} {c : List (List ℚ)} {k : ℕ}
    (hsc : s.length = c.length) (hck : c.length ≤ k) :
    (keptRows s c k).Perm c := by
  rw [keptRows, List.take_of_length_le (by rw [argsort_length]; omega)]
  have hmap := (argsort_perm s).map (fun i => c.getD i [])
  have hr : (List.range s.length).map (fun i => c.getD i []) = c := by
    rw [hsc]
    exact map_getD_range c []
  rw [hr] at hmap
  exact hmap

/-- C3 (amended): The histogram pools of `_compute_concept_histograms`
are built for the class *indices* `t = 0, …, n_tumors - 1` — which name
the configured classes exactly when the configured label set is
`0, …, n-1`, as in the default `0,1,2`.  When every index has at least
one sample whose label equals it, the table is built without error and
the pool at index `t` gathers exactly the samples whose label equals
`t`; an index with no matching sample instead makes `np.concatenate`
raise on its empty pool.  Each pooled sample contributes the rows of its
concept matrix at the first `k` positions of an ascending sort of its
importance scores (so the `k` retained nodes all score no higher than
any discarded node), and a sample with at most `k` nodes contributes all
of its rows, with no padding and no error. -/
theorem concept_pool_selection :
    (∀ (labels : List ℕ) (imps : List (List ℚ))
      (cons : List (List (List ℚ))) (k t : ℕ),
      labels.length = imps.length → labels.length = cons.length →
      (t ∈ labels →
        classPoolE labels imps cons k t =
          .ok (specPool labels imps cons k t)) ∧
      (t ∉ labels →
        classPoolE labels imps cons k t = .error .emptyClass)) ∧
    (∀ (nT : ℕ) (labels : List ℕ) (imps : List (List ℚ))
      (cons : List (List (List ℚ))) (k : ℕ),
      labels.length = imps.length → labels.length = cons.length →
      ((∀ t, t < nT → t ∈ labels) →
        conceptPoolsE nT labels imps cons k =
          .ok ((List.range nT).map
            (fun t => specPool labels imps cons k t))) ∧
      ((∃ t, t < nT ∧ t ∉ labels) →
        conceptPoolsE nT labels imps cons k = .error .emptyClass)) ∧
    (∀ s : List ℚ, (argsort s).Perm (List.range s.length) ∧
      List.Sorted (· ≤ ·) ((argsort s).map (fun i => s.getD i 0)) ∧
      (∀ k, ∀ i ∈ (argsort s).take k, ∀ j ∈ (argsort s).drop k,
        s.getD i 0 ≤ s.getD j 0)) ∧
    (∀ (s : List ℚ) (c : List (List ℚ)) (k : ℕ),
      s.length = c.length → c.length ≤ k → (keptRows s c k).Perm c) := by
  refine ⟨?_, ?_, ?_, fun s c k => keptRows_perm_of_short⟩
  · intro labels imps cons k t h1 h2
    exact ⟨classPoolE_of_mem h1 h2, classPoolE_of_not_mem h1 h2⟩
  · intro nT labels imps cons k h1 h2
    constructor
    · intro hall
      exact poolsAux_ok h1 h2 (List.range nT)
        (fun t ht => hall t (List.mem_range.mp ht))
    · intro ⟨t, ht, htnot⟩
      exact poolsAux_error h1 h2 (List.range nT)
        ⟨t, List.mem_range.mpr ht, htnot⟩
  · intro s
    refine ⟨argsort_perm s, ?_, ?_⟩
    · exact List.pairwise_map.mpr (argsort_sorted s)
    · intro k i hi j hj
      have h := argsort_sorted s
      rw [← List.take_append_drop k (argsort s)] at h
      exact (List.pairwise_append.mp h).2.2 i hi j hj

/-- Witness for C3 at one-node samples: the pool at class index `0`
coincides with the claimed pool, the pool of a class index matching no
sample raises, and a sample of one node contributes its whole row when
`k = 5` exceeds the node count. -/
theorem concept_pool_selection_witness :
    classPoolE [0, 1] [[0], [0]] [[[3]], [[4]]] 1 0 =
      .ok (specPool [0, 1] [[0], [0]] [[[3]], [[4]]] 1 0) ∧
    classPoolE [0, 1] [[0], [0]] [[[3]], [[4]]] 1 5 =
      .error .emptyClass ∧
    (keptRows [0] [[(3 : ℚ)]] 5).Perm [[(3 : ℚ)]] :=
  ⟨(concept_pool_selection.1 [0, 1] [[0], [0]] [[[3]], [[4]]] 1 0
      rfl rfl).1 (by simp),
    (concept_pool_selection.1 [0, 1] [[0], [0]] [[[3]], [[4]]] 1 5
      rfl rfl).2 (by simp),
    concept_pool_selection.2.2.2 [0] [[(3 : ℚ)]] 5 (by simp) (by simp)⟩

/-- C3 counterexample to the claim as stated: Configure the class label
set as `{1, 2}` (so `n_tumors = 2`) and take three one-node samples with
labels `0`, `1` and `2` and concept rows `[3]`, `[5]` and `[7]`.  The
code builds pools for the *indices* `0` and `1` by filtering
`label == t`, so every index finds a sample and the table is built
without error: pool `0` holds the label-`0` sample — a label outside the
configured class set — and pool `1` holds the label-`1` sample; no pool
of the table is the pool `[[7]]` the claim demands for configured class
`2`. -/
theorem concept_pool_misses_configured_class :
    conceptPoolsE 2 [0, 1, 2] [[0], [0], [0]] [[[3]], [[5]], [[7]]] 1 =
      .ok [[[(3 : ℚ)]], [[(5 : ℚ)]]] ∧
    specPool [0, 1, 2] [[0], [0], [0]] [[[3]], [[5]], [[7]]] 1 2 =
      [[(7 : ℚ)]] ∧
    ¬ [[(7 : ℚ)]] ∈ [[[(3 : ℚ)]], [[(5 : ℚ)]]] := by
  refine ⟨rfl, rfl, ?_⟩
  intro hmem
  rcases List.mem_cons.mp hmem with h | h
  · norm_num at h
  · rcases List.mem_cons.mp h with h' | h'
    · norm_num at h'
    · exact absurd h' (List.not_mem_nil _)

/-! ## Theorems — claim C4: global per-concept normalization -/

theorem normRow_length :
    ∀ (r : List ℚ) (ms : List (ℚ × ℚ)),
      (normRow r ms).length = min r.length ms.length := by
  intro r
  induction r with
  | nil => intro ms; cases ms <;> simp [normRow]
  | cons x xs ih =>
    intro ms
    cases ms with
    | nil => simp [normRow]
    | cons mM rest =>
      simp only [normRow, List.length_cons, ih rest]
      omega

theorem getD_normRow :
    ∀ (r : List ℚ) (ms : List (ℚ × ℚ)) (j : ℕ), j < r.length →
      j < ms.length →
      (normRow r ms).getD j 0 =
        scaleVal (ms.getD j (0, 0)).1 (ms.getD j (0, 0)).2 (r.getD j 0) := by
  intro r
  induction r with
  | nil => intro ms j h1 h2; simp at h1
  | cons x xs ih =>
    intro ms j h1 h2
    cases ms with
    | nil => simp at h2
    | cons mM rest =>
      cases j with
      | zero => rfl
      | succ jj => exact ih rest jj (by simpa using h1) (by simpa using h2)

theorem mem_normRow :
    ∀ (r : List ℚ) (ms : List (ℚ × ℚ)) (v : ℚ), v ∈ normRow r ms →
      ∃ jj, jj < r.length ∧ jj < ms.length ∧
        v = scaleVal (ms.getD jj (0, 0)).1 (ms.getD jj (0, 0)).2
          (r.getD jj 0) := by
  intro r
  induction r with
  | nil => intro ms v hv; cases ms <;> simp [normRow] at hv
  | cons x xs ih =>
    intro ms v hv
    cases ms with
    | nil => simp [normRow] at hv
    | cons mM rest =>
      rcases List.mem_cons.mp (by simpa [normRow] using hv) with rfl | hv'
      · exact ⟨0, by simp, by simp, rfl⟩
      · rcases ih rest v hv' with ⟨jj, hj1, hj2, he⟩
        exact ⟨jj + 1, by simpa using hj1, by simpa using hj2, he⟩

theorem headD_length_of_uniform {F : List (List ℚ)} {c : ℕ} (hne : F ≠ [])
    (hcF : ∀ r ∈ F, r.length = c) : (F.headD []).length = c := by
  cases F with
  | nil => exact absurd rfl hne
  | cons hd tl => exact hcF hd (List.mem_cons_self _ _)

theorem colMM_length {F : List (List ℚ)} :
    (colMM F).length = (F.headD []).length := by
  simp [colMM]

theorem colMM_getD {F : List (List ℚ)} {j : ℕ}
    (hj : j < (F.headD []).length) :
    (colMM F).getD j (0, 0) =
      (listMin (column F j), listMax (column F j)) := by
  rw [colMM, getD_map' _ _ _ 0 _ (by simpa using hj), range_getD hj]

theorem scaleVal_bounds {m M x : ℚ} (h1 : m ≤ x) (h2 : x ≤ M) :
    0 ≤ scaleVal m M x ∧ scaleVal m M x ≤ 1 := by
  rw [scaleVal]
  by_cases hMm : M = m
  · have hx : x = m := le_antisymm (hMm ▸ h2) h1
    rw [if_pos hMm]
    constructor <;> simp [hx]
  · rw [if_neg hMm]
    have hlt : m < M := lt_of_le_of_ne (h1.trans h2) (Ne.symm hMm)
    constructor
    · exact div_nonneg (by linarith) (by linarith)
    · rw [div_le_one (by linarith)]
      linarith

theorem scaleVal_min (m M : ℚ) : scaleVal m M m = 0 := by
  rw [scaleVal]
  simp

theorem scaleVal_max {m M : ℚ} (h : m ≠ M) : scaleVal m M M = 1 := by
  rw [scaleVal, if_neg (Ne.symm h)]
  exact div_self (sub_ne_zero.mpr (Ne.symm h))

theorem flatten_splitRows :
    ∀ (samples : List (List (List ℚ))) (st : List (List ℚ)),
      st.length = (samples.map List.length).sum →
      (splitRows samples st).flatten = st := by
  intro samples
  induction samples with
  | nil =>
    intro st h
    simp only [List.map_nil, List.sum_nil] at h
    rw [List.length_eq_zero] at h
    rw [h]
    rfl
  | cons s rest ih =>
    intro st h
    have h' : st.length = s.length + (rest.map List.length).sum := by
      simpa using h
    have hlen : (st.drop s.length).length = (rest.map List.length).sum := by
      rw [List.length_drop]
      omega
    rw [splitRows, List.flatten_cons, ih _ hlen, List.take_append_drop]

theorem splitRows_map_length :
    ∀ (samples : List (List (List ℚ))) (st : List (List ℚ)),
      st.length = (samples.map List.length).sum →
      (splitRows samples st).map List.length = samples.map List.length := by
  intro samples
  induction samples with
  | nil => intro st h; rfl
  | cons s rest ih =>
    intro st h
    have h' : st.length = s.length + (rest.map List.length).sum := by
      simpa using h
    have hlen : (st.drop s.length).length = (rest.map List.length).sum := by
      rw [List.length_drop]
      omega
    rw [splitRows, List.map_cons, List.map_cons, ih _ hlen, List.length_take]
    congr 1
    omega

theorem mem_splitRows :
    ∀ (samples : List (List (List ℚ))) (st : List (List ℚ))
      (blk : List (List ℚ)), blk ∈ splitRows samples st →
      ∀ r ∈ blk, r ∈ st := by
  intro samples
  induction samples with
  | nil => intro st blk hblk; simp [splitRows] at hblk
  | cons s rest ih =>
    intro st blk hblk r hr
    rcases List.mem_cons.mp hblk with rfl | hblk'
    · exact List.take_subset _ _ hr
    · exact List.drop_subset _ _ (ih _ _ hblk' r hr)

theorem minmaxScale_length (F : List (List ℚ)) :
    (minmaxScale F).length = F.length := by
  simp [minmaxScale]

theorem minmaxScale_getD {F : List (List ℚ)} {c i j : ℕ} (hne : F ≠ [])
    (hcF : ∀ r ∈ F, r.length = c) (hi : i < F.length) (hj : j < c) :
    ((minmaxScale F).getD i []).getD j 0 =
      scaleVal (listMin (column F j)) (listMax (column F j))
        ((F.getD i []).getD j 0) := by
  rw [minmaxScale, getD_map' _ _ _ [] _ hi]
  have hrow : F.getD i [] ∈ F := by
    rw [List.getD_eq_getElem _ _ hi]
    exact List.getElem_mem _
  rw [getD_normRow _ _ _ (by rw [hcF _ hrow]; exact hj)
    (by rw [colMM_length, headD_length_of_uniform hne hcF]; exact hj)]
  rw [colMM_getD (by rw [headD_length_of_uniform hne hcF]; exact hj)]

/-- C4 (amended): `normalize_node_concept` round-trips: concatenating
the per-sample outputs in order reconstructs the pooled min-max-rescaled
matrix exactly; per-sample row counts and the concept column count are
preserved; every output value lies in `[0, 1]`; in each concept column any
entry equal to the global minimum maps to exactly `0`, and — when the
column is not constant — any entry equal to the global maximum maps to
exactly `1`.  (A constant column is rescaled with sklearn's zero-range
policy, mapping everything, its maximum included, to `0`.) -/
theorem normalize_node_concept_roundtrip (samples : List (List (List ℚ)))
    (c : ℕ) (hc : ∀ s ∈ samples, ∀ r ∈ s, r.length = c)
    (hne : samples.flatten ≠ []) :
    (normalize_node_concept samples).flatten =
      minmaxScale samples.flatten ∧
    (normalize_node_concept samples).map List.length =
      samples.map List.length ∧
    (∀ blk ∈ normalize_node_concept samples, ∀ r ∈ blk, r.length = c) ∧
    (∀ blk ∈ normalize_node_concept samples, ∀ r ∈ blk, ∀ v ∈ r,
      0 ≤ v ∧ v ≤ 1) ∧
    (∀ i j, i < samples.flatten.length → j < c →
      ((samples.flatten.getD i []).getD j 0 =
          listMin (column samples.flatten j) →
        ((minmaxScale samples.flatten).getD i []).getD j 0 = 0) ∧
      (listMin (column samples.flatten j) ≠
          listMax (column samples.flatten j) →
        (samples.flatten.getD i []).getD j 0 =
          listMax (column samples.flatten j) →
        ((minmaxScale samples.flatten).getD i []).getD j 0 = 1)) := by
  have hcF : ∀ r ∈ samples.flatten, r.length = c := by
    intro r hr
    rcases List.mem_flatten.mp hr with ⟨s, hs, hrs⟩
    exact hc s hs r hrs
  have hlen : (minmaxScale samples.flatten).length =
      (samples.map List.length).sum := by
    rw [minmaxScale_length, List.length_flatten]
  refine ⟨flatten_splitRows _ _ hlen, splitRows_map_length _ _ hlen, ?_, ?_, ?_⟩
  · intro blk hblk r hr
    have hrm : r ∈ minmaxScale samples.flatten :=
      mem_splitRows _ _ _ hblk r hr
    rcases List.mem_map.mp hrm with ⟨r0, hr0, rfl⟩
    rw [normRow_length, hcF _ hr0, colMM_length,
      headD_length_of_uniform hne hcF]
    omega
  · intro blk hblk r hr v hv
    have hrm : r ∈ minmaxScale samples.flatten :=
      mem_splitRows _ _ _ hblk r hr
    rcases List.mem_map.mp hrm with ⟨r0, hr0, rfl⟩
    rcases mem_normRow _ _ _ hv with ⟨jj, hj1, hj2, rfl⟩
    have hjc : jj < c := by rw [← hcF _ hr0]; exact hj1
    rw [colMM_getD (by rw [headD_length_of_uniform hne hcF]; exact hjc)]
    have hmem : r0.getD jj 0 ∈ column samples.flatten jj :=
      List.mem_map.mpr ⟨r0, hr0, rfl⟩
    exact scaleVal_bounds (listMin_le_mem hmem) (mem_le_listMax hmem)
  · intro i j hi hj
    constructor
    · intro hmin
      rw [minmaxScale_getD hne hcF hi hj, hmin, scaleVal_min]
    · intro hneq hmax
      rw [minmaxScale_getD hne hcF hi hj, hmax, scaleVal_max hneq]

/-- Witness for C4 on two one-node samples with one concept: the
round-trip and the per-sample row counts hold concretely. -/
theorem normalize_node_concept_roundtrip_witness :
    (normalize_node_concept [[[(1 : ℚ)]], [[(3 : ℚ)]]]).flatten =
      minmaxScale ([[[(1 : ℚ)]], [[(3 : ℚ)]]].flatten) ∧
    (normalize_node_concept [[[(1 : ℚ)]], [[(3 : ℚ)]]]).map List.length =
      [[[(1 : ℚ)]], [[(3 : ℚ)]]].map List.length := by
  have hc : ∀ s ∈ [[[(1 : ℚ)]], [[(3 : ℚ)]]], ∀ r ∈ s, r.length = 1 := by
    intro s hs r hr
    fin_cases hs <;> simp at hr <;> rw [hr] <;> rfl
  have hne : ([[[(1 : ℚ)]], [[(3 : ℚ)]]].flatten) ≠ [] := by simp
  have h := normalize_node_concept_roundtrip [[[(1 : ℚ)]], [[(3 : ℚ)]]] 1
    hc hne
  exact ⟨h.1, h.2.1⟩

/-- C4 counterexample to the claim as stated: A single sample with
a single node and one concept of value `3`: the global maximum of the
(constant) concept column is `3`, yet normalization maps it to `0`, not to
the claimed `1.0` — sklearn's `minmax_scale` sends a zero-range column to
`0` everywhere. -/
theorem normalize_constant_column_max_not_one :
    normalize_node_concept [[[(3 : ℚ)]]] = [[[0]]] ∧
    listMax (column ([[[(3 : ℚ)]]].flatten) 0) = 3 ∧ (0 : ℚ) ≠ 1 := by
  refine ⟨?_, rfl, by norm_num⟩
  have h2 : scaleVal 3 3 3 = 0 := scaleVal_min 3 3
  show [[normRow [3] (colMM [[(3 : ℚ)]])]] = [[[0]]]
  have h1 : colMM [[(3 : ℚ)]] = [(3, 3)] := rfl
  rw [h1]
  show [[[scaleVal 3 3 3]]] = [[[0]]]
  rw [h2]

/-! ## Theorems — claim C8: the AUC scoring stage's domain -/

theorem chain_lt_diffs_pos {xs : List ℚ} (h : List.Chain' (· < ·) xs) :
    ∀ d ∈ diffs xs, 0 < d := by
  induction xs with
  | nil => intro d hd; simp [diffs] at hd
  | cons x xs ih =>
    intro d hd
    cases xs with
    | nil => simp [diffs] at hd
    | cons y rest =>
      rw [List.chain'_cons] at h
      have hd' : d ∈ (y - x) :: diffs (y :: rest) := by
        simpa [diffs] using hd
      rcases List.mem_cons.mp hd' with rfl | hmem
      · exact sub_pos.mpr h.1
      · exact ih h.2 d hmem

/-- C8 (amended): `sklearn.metrics.auc` (line 71) succeeds on every
strictly increasing `keep_numbers` (and the scoring stage emits one
trapezoidal scalar per class-pair and concept, over `keep_numbers` as the
x-axis).  But it does not fail on every non-strictly-increasing sequence:
it raises only when the sequence is neither non-decreasing nor
non-increasing; a monotonically non-increasing sequence succeeds with the
sign-flipped trapezoidal area, and no `InvalidDomain` error kind exists. -/
theorem auc_domain_characterization (xs ys : List ℚ) (hlen : 2 ≤ xs.length) :
    (List.Chain' (· < ·) xs → aucFn xs ys = .ok (trapz ys xs)) ∧
    ((∀ d ∈ diffs xs, d ≤ 0) →
      ((∃ d ∈ diffs xs, d < 0) → aucFn xs ys = .ok (-(trapz ys xs))) ∧
      ((∀ d ∈ diffs xs, ¬ d < 0) → aucFn xs ys = .ok (trapz ys xs))) ∧
    (aucFn xs ys = .error .notMonotonic ↔
      ((∃ d ∈ diffs xs, d < 0) ∧ ¬ (∀ d ∈ diffs xs, d ≤ 0))) ∧
    (∀ (ks : List ℚ) (dists : List (List (List ℚ))) (nP nC p c : ℕ),
      p < nP → c < nC →
      (aucStage ks dists nP nC).length = nP ∧
      ((aucStage ks dists nP nC).getD p []).length = nC ∧
      (((aucStage ks dists nP nC).getD p []).getD c (.error .tooShort)) =
        aucFn ks (dists.map (fun byK => (byK.getD p []).getD c 0))) := by
  have hnotshort : ¬ xs.length < 2 := by omega
  refine ⟨?_, ?_, ?_, ?_⟩
  · intro hchain
    have hpos := chain_lt_diffs_pos hchain
    rw [aucFn, if_neg hnotshort, if_neg ?hno]
    case hno =>
      rw [Bool.not_eq_true, List.any_eq_false]
      intro d hd
      simpa using not_lt_of_gt (hpos d hd)
  · intro hall
    constructor
    · intro ⟨d, hd, hdlt⟩
      rw [aucFn, if_neg hnotshort, if_pos ?hyes, if_pos ?hall]
      case hyes => exact List.any_eq_true.mpr ⟨d, hd, by simpa using hdlt⟩
      case hall =>
        rw [List.all_eq_true]
        intro e he
        simpa using hall e he
    · intro hnone
      rw [aucFn, if_neg hnotshort, if_neg ?hno]
      case hno =>
        rw [Bool.not_eq_true, List.any_eq_false]
        intro d hd
        simpa using hnone d hd
  · constructor
    · intro herr
      rw [aucFn, if_neg hnotshort] at herr
      by_cases hany : (diffs xs).any (fun d => decide (d < 0)) = true
      · rw [if_pos hany] at herr
        by_cases hall : (diffs xs).all (fun d => decide (d ≤ 0)) = true
        · rw [if_pos hall] at herr
          cases herr
        · rw [if_neg hall] at herr
          rcases List.any_eq_true.mp hany with ⟨d, hd, hdlt⟩
          refine ⟨⟨d, hd, by simpa using hdlt⟩, ?_⟩
          intro hcontra
          apply hall
          rw [List.all_eq_true]
          intro e he
          simpa using hcontra e he
      · rw [if_neg hany] at herr
        cases herr
    · intro ⟨⟨d, hd, hdlt⟩, hnall⟩
      rw [aucFn, if_neg hnotshort,
        if_pos (List.any_eq_true.mpr ⟨d, hd, by simpa using hdlt⟩),
        if_neg ?hnall]
      case hnall =>
        intro hcontra
        apply hnall
        intro e he
        simpa using List.all_eq_true.mp hcontra e he
  · intro ks dists nP nC p c hp hc
    refine ⟨by simp [aucStage], ?_, ?_⟩
    · rw [aucStage, getD_map' _ _ _ 0 _ (by simpa using hp)]
      simp
    · rw [aucStage, getD_map' _ _ _ 0 _ (by simpa using hp),
        getD_map' _ _ _ 0 _ (by simpa using hc), range_getD hc,
        range_getD hp]

/-- Witness for C8 at `keep_numbers = [5, 10]`: strictly increasing, two
points, so the scorer succeeds with the trapezoid over `[5, 10]`. -/
theorem auc_domain_characterization_witness :
    aucFn [(5 : ℚ), 10] [1, 3] = .ok (trapz [1, 3] [(5 : ℚ), 10]) := by
  refine (auc_domain_characterization [(5 : ℚ), 10] [1, 3] (by simp)).1 ?_
  rw [List.chain'_cons]
  norm_num

/-- C8 counterexample to the claim as stated: The strictly
*decreasing* sequence `[10, 5]` is not strictly increasing, yet
`sklearn.metrics.auc` succeeds on it (direction `-1`), returning `5` for
the constant curve `[1, 1]` instead of failing. -/
theorem auc_decreasing_succeeds :
    aucFn [(10 : ℚ), 5] [1, 1] = .ok 5 := by
  rw [aucFn, if_neg (by simp), if_pos ?hany, if_pos ?hall]
  case hany =>
    rw [List.any_eq_true]
    refine ⟨5 - 10, ?_, by norm_num⟩
    simp [diffs]
  case hall =>
    rw [List.all_eq_true]
    intro d hd
    have : d = 5 - 10 := by simpa [diffs] using hd
    subst this
    norm_num
  have : trapz [(1 : ℚ), 1] [10, 5] = -5 := by
    simp [trapz]
    norm_num
  rw [this]
  norm_num

/-! ## Theorems — the mask-learning loop (claims C1, C2, C9, C10) -/

section ExplainerProofs

variable {n f : ℕ}
  (classify : (Fin n → Fin n → ℚ) → (Fin n → Fin f → ℚ) → List ℚ)
  (smax : List ℚ → List ℚ) (aT nT : ℚ) (adj : Fin n → Fin n → ℚ)
  (x : Fin n → Fin f → ℚ) (masks : ℕ → MaskStep n) (initPred : ℕ)

theorem runSteps_snd_isSome :
    ∀ (steps s : ℕ) (best : BestState n f) (lp : Option (List ℚ)),
      0 < steps ∨ lp.isSome = true →
      ((runSteps classify smax aT nT adj x masks initPred
        steps s best lp).2).isSome = true := by
  intro steps
  induction steps with
  | zero =>
    intro s best lp h
    rcases h with h | h
    · omega
    · simpa [runSteps] using h
  | succ k ih =>
    intro s best lp _
    simp only [runSteps]
    split
    · exact ih (s + 1) _ _ (Or.inr rfl)
    · rfl

theorem runSteps_no_drift :
    ∀ (steps s : ℕ) (best : BestState n f) (lp : Option (List ℚ)),
      0 < steps →
      (∀ t, s ≤ t → t < s + steps →
        argmax (stepLogits classify adj x masks t) = initPred) →
      runSteps classify smax aT nT adj x masks initPred steps s best lp =
        (stepBest classify smax aT nT adj x masks (s + steps - 1),
          some (smax (stepLogits classify adj x masks (s + steps - 1)))) := by
  intro steps
  induction steps with
  | zero => intro s best lp h; omega
  | succ k ih =>
    intro s best lp _ hall
    simp only [runSteps]
    rw [if_pos (hall s (le_refl s) (by omega))]
    rcases Nat.eq_zero_or_pos k with hk | hk
    · subst hk
      simp only [runSteps]
      rfl
    · rw [ih (s + 1) _ _ hk (fun t ht1 ht2 => hall t (by omega) (by omega))]
      have he : s + 1 + k - 1 = s + (k + 1) - 1 := by omega
      rw [he]

theorem runSteps_first_drift (D : ℕ)
    (hno : ∀ t, t < D → argmax (stepLogits classify adj x masks t) = initPred)
    (hD : argmax (stepLogits classify adj x masks D) ≠ initPred) :
    ∀ (steps s : ℕ) (best : BestState n f) (lp : Option (List ℚ)),
      s ≤ D → D < s + steps →
      runSteps classify smax aT nT adj x masks initPred steps s best lp =
        (if s = D then best
          else stepBest classify smax aT nT adj x masks (D - 1),
          some (smax (stepLogits classify adj x masks D))) := by
  intro steps
  induction steps with
  | zero => intro s best lp h1 h2; omega
  | succ k ih =>
    intro s best lp hsD hDs
    simp only [runSteps]
    by_cases hs : s = D
    · subst hs
      rw [if_neg hD, if_pos rfl]
    · have hslt : s < D := lt_of_le_of_ne hsD hs
      rw [if_pos (hno s hslt), ih (s + 1) _ _ (by omega) (by omega),
        if_neg hs]
      by_cases hs1 : s + 1 = D
      · rw [if_pos hs1]
        have hse : s = D - 1 := by omega
        rw [hse]
      · rw [if_neg hs1]

/-- C9: For every graph, classifier, mask trajectory and positive
step budget, `explain` returns, and its `probs_before` is the softmax of
the frozen classifier's logits on the fully unmasked graph — computed
once up front and threaded unchanged to the return, whatever the
optimization does. -/
theorem probs_before_from_unmasked_graph (numEpochs : ℕ)
    (hE : 0 < numEpochs) :
    ∃ r, explain classify smax aT nT adj x masks numEpochs = some r ∧
      r.probsBefore = smax (classify adj x) := by
  have hsome := runSteps_snd_isSome classify smax aT nT adj x masks
    (argmax (classify adj x)) numEpochs 0
    ⟨adj, x, smax (classify adj x), (masks 0).nodeMask⟩ none (Or.inl hE)
  rcases Option.isSome_iff_exists.mp hsome with ⟨p, hp⟩
  refine ⟨⟨(runSteps classify smax aT nT adj x masks (argmax (classify adj x))
      numEpochs 0 ⟨adj, x, smax (classify adj x), (masks 0).nodeMask⟩
      none).1.adjE,
    (runSteps classify smax aT nT adj x masks (argmax (classify adj x))
      numEpochs 0 ⟨adj, x, smax (classify adj x), (masks 0).nodeMask⟩
      none).1.featsE,
    smax (classify adj x), p,
    (runSteps classify smax aT nT adj x masks (argmax (classify adj x))
      numEpochs 0 ⟨adj, x, smax (classify adj x), (masks 0).nodeMask⟩
      none).1.imp⟩, ?_, rfl⟩
  simp only [explain]
  rw [hp]
  rfl

/-- Witness for C9 on the concrete one-node instance with a one-step
budget. -/
theorem probs_before_from_unmasked_graph_witness :
    ∃ r, explain exClassify id (1 / 2) (1 / 2) exAdj exX exMasksC1 1 =
      some r ∧ r.probsBefore = id (exClassify exAdj exX) :=
  probs_before_from_unmasked_graph exClassify id (1 / 2) (1 / 2) exAdj exX
    exMasksC1 1 (by omega)

/-- C1 (amended): For every run with a positive budget, `explain`
returns a result whose stored tensors are overwritten only at iterations
whose predicted label — read from the classifier's logits on the
*soft-masked* (pre-threshold) inputs, the only logits the loop ever
computes — equals the original predicted label, and the run halts the
first time that label drifts: if no step of the budget drifts the result
is the thresholded state of the last step, and if `D` is the first
drifting step the result equals the run truncated at budget `D + 1`, is
the unmasked initial state when `D = 0`, and otherwise is the thresholded
state of the non-drifting step `D - 1`.  (The classifier is never re-run
on the thresholded tensors, so no statement about their recomputed label
follows; the claim as stated is refuted by
`returned_explanation_label_not_preserved`.) -/
theorem best_explanation_label_matching (numEpochs : ℕ)
    (hE : 0 < numEpochs) :
    ∃ r, explain classify smax aT nT adj x masks numEpochs = some r ∧
      ((∀ t, t < numEpochs → ¬ driftAt classify adj x masks t) →
        r.adjExpl =
          (stepBest classify smax aT nT adj x masks (numEpochs - 1)).adjE ∧
        r.featsExpl =
          (stepBest classify smax aT nT adj x masks (numEpochs - 1)).featsE ∧
        r.nodeImportance = (masks (numEpochs - 1)).nodeMask ∧
        r.probsAfter = smax (stepLogits classify adj x masks (numEpochs - 1))) ∧
      (∀ D, D < numEpochs →
        (∀ t, t < D → ¬ driftAt classify adj x masks t) →
        driftAt classify adj x masks D →
        explain classify smax aT nT adj x masks (D + 1) = some r ∧
        r.probsAfter = smax (stepLogits classify adj x masks D) ∧
        (D = 0 → r.adjExpl = adj ∧ r.featsExpl = x ∧
          r.nodeImportance = (masks 0).nodeMask) ∧
        (0 < D → ¬ driftAt classify adj x masks (D - 1) ∧
          r.adjExpl =
            (stepBest classify smax aT nT adj x masks (D - 1)).adjE ∧
          r.featsExpl =
            (stepBest classify smax aT nT adj x masks (D - 1)).featsE ∧
          r.nodeImportance = (masks (D - 1)).nodeMask)) := by
  rcases hRS : runSteps classify smax aT nT adj x masks
      (argmax (classify adj x)) numEpochs 0
      ⟨adj, x, smax (classify adj x), (masks 0).nodeMask⟩ none
    with ⟨bestOut, lpOut⟩
  have hsome := runSteps_snd_isSome classify smax aT nT adj x masks
    (argmax (classify adj x)) numEpochs 0
    ⟨adj, x, smax (classify adj x), (masks 0).nodeMask⟩ none (Or.inl hE)
  rw [hRS] at hsome
  rcases Option.isSome_iff_exists.mp (by simpa using hsome) with ⟨p, hp⟩
  subst hp
  refine ⟨⟨bestOut.adjE, bestOut.featsE, smax (classify adj x), p,
    bestOut.imp⟩, ?_, ?_, ?_⟩
  · simp only [explain]
    rw [hRS]
    rfl
  · intro hall
    have heq := runSteps_no_drift classify smax aT nT adj x masks
      (argmax (classify adj x)) numEpochs 0
      ⟨adj, x, smax (classify adj x), (masks 0).nodeMask⟩ none hE
      (fun t ht1 ht2 => not_ne_iff.mp (hall t (by omega)))
    rw [hRS] at heq
    have hzero : 0 + numEpochs - 1 = numEpochs - 1 := by omega
    rw [hzero] at heq
    have hb : bestOut =
        stepBest classify smax aT nT adj x masks (numEpochs - 1) :=
      congrArg Prod.fst heq
    have hp2 : p = smax (stepLogits classify adj x masks (numEpochs - 1)) :=
      Option.some.inj (congrArg Prod.snd heq)
    refine ⟨?_, ?_, ?_, hp2⟩ <;> rw [hb] <;> rfl
  · intro D hD hno hdrift
    have hnoeq : ∀ t, t < D →
        argmax (stepLogits classify adj x masks t) =
          argmax (classify adj x) :=
      fun t ht => not_ne_iff.mp (hno t ht)
    have heq := runSteps_first_drift classify smax aT nT adj x masks
      (argmax (classify adj x)) D hnoeq hdrift numEpochs 0
      ⟨adj, x, smax (classify adj x), (masks 0).nodeMask⟩ none
      (by omega) (by omega)
    rw [hRS] at heq
    have heq2 := runSteps_first_drift classify smax aT nT adj x masks
      (argmax (classify adj x)) D hnoeq hdrift (D + 1) 0
      ⟨adj, x, smax (classify adj x), (masks 0).nodeMask⟩ none
      (by omega) (by omega)
    have hb : bestOut = (if 0 = D then
        ⟨adj, x, smax (classify adj x), (masks 0).nodeMask⟩
      else stepBest classify smax aT nT adj x masks (D - 1)) :=
      congrArg Prod.fst heq
    have hp2 : p = smax (stepLogits classify adj x masks D) :=
      Option.some.inj (congrArg Prod.snd heq)
    refine ⟨?_, hp2, ?_, ?_⟩
    · simp only [explain]
      rw [heq2, ← hb, hp2]
      rfl
    · intro hD0
      subst hD0
      rw [if_pos rfl] at hb
      refine ⟨?_, ?_, ?_⟩ <;> rw [hb] <;> rfl
    · intro hDpos
      have hs0 : ¬ 0 = D := by omega
      rw [if_neg hs0] at hb
      refine ⟨hno (D - 1) (by omega), ?_, ?_, ?_⟩ <;> rw [hb] <;> rfl

end ExplainerProofs

/-- Witness for C1 on the concrete one-node run that drifts at step `1`
of a two-step budget: the returned tensors are the thresholded state of
the non-drifting step `0`, and `probs_after` carries the drift
iteration's probabilities. -/
theorem best_explanation_label_matching_witness :
    ∃ r, explain exClassify id (1 / 2) (1 / 2) exAdj exX exMasksC2 2 =
        some r ∧
      r.probsAfter = id (stepLogits exClassify exAdj exX exMasksC2 1) ∧
      r.adjExpl =
        (stepBest exClassify id (1 / 2) (1 / 2) exAdj exX exMasksC2 0).adjE := by
  obtain ⟨r, he, _, hdrift⟩ := best_explanation_label_matching exClassify id
    (1 / 2) (1 / 2) exAdj exX exMasksC2 2 (by omega)
  have h1 : driftAt exClassify exAdj exX exMasksC2 1 := by
    norm_num [driftAt, stepLogits, exClassify, exMasksC2, exAdj, exX,
      softMaskedAdj, softMaskedFeats, argmax, argmaxAux]
  have h0 : ∀ t, t < 1 → ¬ driftAt exClassify exAdj exX exMasksC2 t := by
    intro t ht
    have ht0 : t = 0 := by omega
    subst ht0
    norm_num [driftAt, stepLogits, exClassify, exMasksC2, exAdj, exX,
      softMaskedAdj, softMaskedFeats, argmax, argmaxAux]
  obtain ⟨_, hp2, _, hpos⟩ := hdrift 1 (by omega) h0 h1
  exact ⟨r, he, hp2, (hpos (by omega)).2.1⟩

/-- C1 counterexample to the claim as stated: One node, two
classes, classifier logits `[adjacency entry, 1/2]`, edge threshold
`7/10`, soft edge mask `3/5`, one step: the soft-masked logits
`[3/5, 1/2]` keep the original label `0`, so the loop stores the
*thresholded* tensors — whose adjacency entry is zeroed because
`3/5 ≤ 7/10` — and returns them; re-running the classifier on the
returned masked tensors predicts label `1 ≠ 0`. -/
theorem returned_explanation_label_not_preserved :
    (explain exClassify id (7 / 10) (1 / 2) exAdj exX exMasksC1 1).map
        (fun r => argmax (exClassify r.adjExpl r.featsExpl)) = some 1 ∧
      argmax (exClassify exAdj exX) = 0 := by
  have hall : ∀ t, 0 ≤ t → t < 0 + 1 →
      argmax (stepLogits exClassify exAdj exX exMasksC1 t) =
        argmax (exClassify exAdj exX) := by
    intro t _ ht
    have ht0 : t = 0 := by omega
    subst ht0
    norm_num [stepLogits, exClassify, exAdj, exX, exMasksC1,
      softMaskedAdj, softMaskedFeats, argmax, argmaxAux]
  have heq := runSteps_no_drift exClassify id (7 / 10) (1 / 2) exAdj exX
    exMasksC1 (argmax (exClassify exAdj exX)) 1 0
    ⟨exAdj, exX, id (exClassify exAdj exX), (exMasksC1 0).nodeMask⟩ none
    (by omega) hall
  constructor
  · simp only [explain]
    rw [heq]
    norm_num [stepBest, stepLogits, thrAdj, thrFeats, softMaskedAdj,
      softMaskedFeats, exClassify, exAdj, exX, exMasksC1, argmax, argmaxAux]
  · norm_num [exClassify, exAdj, exX, argmax, argmaxAux]

/-- C2: the divergence demonstrated. On the concrete run that keeps the label at
step `0` and drifts at step `1`, the returned `probs_after` equals the
softmax of the *drift* iteration's logits `[1/10, 1/2]`, not the
probabilities `[9/10, 1/2]` of the retained best iteration `0` whose
tensors are returned: `explain` returns the local loop variable `probs`
(line 139) instead of the carefully maintained `self.probs_explanation`. -/
theorem probs_after_from_drift_iteration :
    (explain exClassify id (1 / 2) (1 / 2) exAdj exX exMasksC2 2).map
        (fun r => r.probsAfter) =
      some (id (stepLogits exClassify exAdj exX exMasksC2 1)) ∧
    (explain exClassify id (1 / 2) (1 / 2) exAdj exX exMasksC2 2).map
        (fun r => r.adjExpl 0 0) =
      some ((stepBest exClassify id (1 / 2) (1 / 2) exAdj exX
        exMasksC2 0).adjE 0 0) ∧
    id (stepLogits exClassify exAdj exX exMasksC2 1) ≠
      id (stepLogits exClassify exAdj exX exMasksC2 0) := by
  have hnoeq : ∀ t, t < 1 →
      argmax (stepLogits exClassify exAdj exX exMasksC2 t) =
        argmax (exClassify exAdj exX) := by
    intro t ht
    have ht0 : t = 0 := by omega
    subst ht0
    norm_num [stepLogits, exClassify, exAdj, exX, exMasksC2,
      softMaskedAdj, softMaskedFeats, argmax, argmaxAux]
  have hD : argmax (stepLogits exClassify exAdj exX exMasksC2 1) ≠
      argmax (exClassify exAdj exX) := by
    norm_num [stepLogits, exClassify, exAdj, exX, exMasksC2,
      softMaskedAdj, softMaskedFeats, argmax, argmaxAux]
  have heq := runSteps_first_drift exClassify id (1 / 2) (1 / 2) exAdj exX
    exMasksC2 (argmax (exClassify exAdj exX)) 1 hnoeq hD 2 0
    ⟨exAdj, exX, id (exClassify exAdj exX), (exMasksC2 0).nodeMask⟩ none
    (by omega) (by omega)
  refine ⟨?_, ?_, ?_⟩
  · simp only [explain]
    rw [heq]
    rfl
  · simp only [explain]
    rw [heq]
    rfl
  · norm_num [stepLogits, exClassify, exAdj, exX, exMasksC2,
      softMaskedAdj, softMaskedFeats]

/-- C10: With the spec-modelled construction-time validation in
place of the absent `explainer_model.py`, a raw input whose adjacency is
not square or whose node count disagrees with the feature matrix's row
count is rejected as `ShapeMismatch` before the loop — for every mask
trajectory and step budget — and a well-shaped input never produces that
error; the Boolean check agrees exactly with the claim's two conditions. -/
theorem shape_validation (adjL featsL : List (List ℚ))
    (classify2 : (Fin adjL.length → Fin adjL.length → ℚ) →
      (Fin adjL.length → Fin (featsL.headD []).length → ℚ) → List ℚ)
    (smax2 : List ℚ → List ℚ) (aT2 nT2 : ℚ)
    (masks2 : ℕ → MaskStep adjL.length) (numEpochs2 : ℕ) :
    (validShapes adjL featsL = false →
      explainChecked adjL featsL classify2 smax2 aT2 nT2 masks2 numEpochs2 =
        .error .shapeMismatch) ∧
    (validShapes adjL featsL = true →
      ∃ out, explainChecked adjL featsL classify2 smax2 aT2 nT2 masks2
        numEpochs2 = .ok out) ∧
    (validShapes adjL featsL = true ↔
      ((∀ row ∈ adjL, row.length = adjL.length) ∧
        featsL.length = adjL.length)) := by
  refine ⟨?_, ?_, ?_⟩
  · intro h
    rw [explainChecked, if_neg (by simp [h])]
  · intro h
    rw [explainChecked, if_pos h]
    exact ⟨_, rfl⟩
  · simp [validShapes, List.all_eq_true]

/-- Witness for C10: a `2 × 2` adjacency with a single-row feature matrix
is rejected as `ShapeMismatch` (here with a trivial classifier, identity
softmax, zero thresholds, constant masks and a one-step budget). -/
theorem shape_validation_witness :
    validShapes [[(1 : ℚ), 1], [1, 1]] [[(1 : ℚ)]] = false ∧
    explainChecked [[(1 : ℚ), 1], [1, 1]] [[(1 : ℚ)]] (fun _ _ => []) id 0 0
      (fun _ => ⟨fun _ _ => 1, fun _ => 1⟩) 1 = .error .shapeMismatch := by
  have hv : validShapes [[(1 : ℚ), 1], [1, 1]] [[(1 : ℚ)]] = false := by
    rfl
  exact ⟨hv, (shape_validation [[(1 : ℚ), 1], [1, 1]] [[(1 : ℚ)]]
    (fun _ _ => []) id 0 0 (fun _ => ⟨fun _ _ => 1, fun _ => 1⟩) 1).1 hv⟩

end Histocart
